import Mathlib

/-!
Verification of the Qwen3-ASR weight-converter scripts
(convert-asr-gguf.py, the tagged GGUF container, and convert-asr-qmodel.py,
the flat .qmodel container).

Embedding conventions:
* Tensor elements and intermediate arithmetic are modelled over the exact
  rationals; float32 arithmetic is treated as exact.  The one reduced-precision
  step the scripts perform explicitly, conversion of a scale to numpy float16,
  is modelled by f16round: round to nearest on the IEEE binary16 grid
  (subnormals included), ties to even.  The binary16 exponent is not capped
  above, so values beyond the finite binary16 range land on an extended grid
  instead of infinity; no property in this development exercises that range.
* numpy round and Python round are round-half-to-even, modelled by rne.
* numpy clip and the max/min clamping in the scripts are modelled by clipZ.
* Assignment of an out-of-range Python integer into a numpy uint8 array wraps
  modulo 256 on NumPy 1.x (it raises OverflowError on NumPy 2); the wrap is
  modelled explicitly where it can occur.
* File output is modelled as the sequence of file operations performed.

The reducibility of the rational-number operations is restored locally so that
concrete computations can be settled by the decide tactic.
-/

set_option maxRecDepth 20000

attribute [local semireducible] Rat.mul Rat.add Rat.sub Rat.inv

/-- Fuel-driven floor of the base-2 logarithm of a natural number. -/
def natLog2Fuel : ℕ → ℕ → ℕ
  | 0, _ => 0
  | fuel + 1, n => if n ≤ 1 then 0 else natLog2Fuel fuel (n / 2) + 1

/-- Floor of the base-2 logarithm, with the argument itself as fuel. -/
def natLog2 (n : ℕ) : ℕ := natLog2Fuel n n

/-- Integer power of two as a rational, allowing negative exponents. -/
def pow2q (e : ℤ) : ℚ := if 0 ≤ e then ((2 : ℚ) ^ e.toNat) else 1 / ((2 : ℚ) ^ (-e).toNat)

/-- Round to nearest integer, ties to even: the rounding performed by numpy
round and by the Python built-in round. -/
def rne (q : ℚ) : ℤ :=
  if q - ⌊q⌋ < 1/2 then ⌊q⌋
  else if (1 : ℚ)/2 < q - ⌊q⌋ then ⌊q⌋ + 1
  else if ⌊q⌋ % 2 = 0 then ⌊q⌋ else ⌊q⌋ + 1

/-- Clamp an integer to the interval from lo to hi; models numpy clip and the
nested max/min clamping in the scripts. -/
def clipZ (lo hi x : ℤ) : ℤ := max lo (min hi x)

/-- Left-to-right maximum of a list with an accumulator; the accumulator is
always an element, which keeps evaluation shallow. -/
def listMaxAux (acc : ℚ) : List ℚ → ℚ
  | [] => acc
  | x :: t => if acc ≤ x then listMaxAux x t else listMaxAux acc t

/-- Maximum of a list of rationals, 0 for the empty list; models numpy max
over a nonempty array. -/
def listMax : List ℚ → ℚ
  | [] => 0
  | x :: t => listMaxAux x t

/-- Left-to-right minimum of a list with an accumulator. -/
def listMinAux (acc : ℚ) : List ℚ → ℚ
  | [] => acc
  | x :: t => if x ≤ acc then listMinAux x t else listMinAux acc t

/-- Minimum of a list of rationals, 0 for the empty list; models numpy min
over a nonempty array. -/
def listMin : List ℚ → ℚ
  | [] => 0
  | x :: t => listMinAux x t

/-- For positive rational q, the exponent e with 2 ^ e ≤ q < 2 ^ (e+1). -/
def qExpFloor (q : ℚ) : ℤ :=
  let n := q.num.toNat
  let d := q.den
  let s := natLog2 n
  let t := natLog2 d
  if d * 2 ^ s ≤ n * 2 ^ t then (s : ℤ) - t else (s : ℤ) - t - 1

/-- Unit in the last place of the IEEE binary16 grid at positive q; the
subnormal step is 2 to the -24, normal binades have 11-bit significands. -/
def f16ulp (q : ℚ) : ℚ := if q < pow2q (-14) then pow2q (-24) else pow2q (qExpFloor q - 10)

/-- Round a positive rational to the IEEE binary16 grid, nearest, ties to
even. -/
def f16roundPos (q : ℚ) : ℚ := (rne (q / f16ulp q)) * f16ulp q

/-- Model of the numpy float16 conversion applied by the scripts to scales:
round to nearest on the binary16 grid, ties to even, symmetric in sign. -/
def f16round (q : ℚ) : ℚ :=
  if q < 0 then - f16roundPos (-q) else if q = 0 then 0 else f16roundPos q

/-! Basic facts about the rounding and clamping helpers. -/

theorem rne_sub_abs_le (q : ℚ) : |(rne q : ℚ) - q| ≤ 1/2 := by
  have h1 : (⌊q⌋ : ℚ) ≤ q := Int.floor_le q
  have h2 : q < ⌊q⌋ + 1 := Int.lt_floor_add_one q
  rw [abs_le]
  unfold rne
  split_ifs with ha hb hc
  · constructor <;> push_cast <;> linarith
  · rw [not_lt] at ha
    constructor <;> push_cast <;> linarith
  · rw [not_lt] at ha hb
    constructor <;> push_cast <;> linarith
  · rw [not_lt] at ha hb
    constructor <;> push_cast <;> linarith

theorem rne_le_int {q : ℚ} {B : ℤ} (h : q ≤ (B : ℚ)) : rne q ≤ B := by
  have habs := rne_sub_abs_le q
  rw [abs_le] at habs
  have h3 : ((rne q : ℤ) : ℚ) < (B : ℚ) + 1 := by linarith [habs.2]
  exact_mod_cast Int.lt_add_one_iff.mp (by exact_mod_cast h3)

theorem int_le_rne {q : ℚ} {B : ℤ} (h : (B : ℚ) ≤ q) : B ≤ rne q := by
  have habs := rne_sub_abs_le q
  rw [abs_le] at habs
  have h3 : (B : ℚ) - 1 < ((rne q : ℤ) : ℚ) := by linarith [habs.1]
  have h4 : (B : ℤ) - 1 < rne q := by exact_mod_cast h3
  omega

theorem clipZ_of_le_of_le {lo hi x : ℤ} (h1 : lo ≤ x) (h2 : x ≤ hi) : clipZ lo hi x = x := by
  unfold clipZ
  rw [min_eq_right h2, max_eq_right h1]

theorem clipZ_mem {lo hi : ℤ} (h : lo ≤ hi) (x : ℤ) : lo ≤ clipZ lo hi x ∧ clipZ lo hi x ≤ hi := by
  unfold clipZ
  refine ⟨le_max_left _ _, ?_⟩
  rw [max_le_iff]
  exact ⟨h, min_le_left _ _⟩

theorem listMaxAux_acc_le : ∀ (t : List ℚ) (acc : ℚ), acc ≤ listMaxAux acc t := by
  intro t
  induction t with
  | nil => intro acc; simp [listMaxAux]
  | cons y t2 ih =>
    intro acc
    rw [listMaxAux]
    split_ifs with h
    · exact le_trans h (ih y)
    · exact ih acc

theorem le_listMaxAux : ∀ (t : List ℚ) (acc x : ℚ), x ∈ t → x ≤ listMaxAux acc t := by
  intro t
  induction t with
  | nil => intro acc x hx; cases hx
  | cons y t2 ih =>
    intro acc x hx
    rcases List.mem_cons.mp hx with rfl | hmem
    · rw [listMaxAux]
      split_ifs with h
      · exact listMaxAux_acc_le t2 x
      · exact le_trans (le_of_not_le h) (listMaxAux_acc_le t2 acc)
    · rw [listMaxAux]
      split_ifs with h
      · exact ih y x hmem
      · exact ih acc x hmem

theorem le_listMax {l : List ℚ} {x : ℚ} (hx : x ∈ l) : x ≤ listMax l := by
  cases l with
  | nil => cases hx
  | cons y t =>
    rcases List.mem_cons.mp hx with rfl | hmem
    · exact listMaxAux_acc_le t x
    · exact le_listMaxAux t y x hmem

theorem listMaxAux_all_zero : ∀ (t : List ℚ), (∀ x ∈ t, x = 0) → listMaxAux 0 t = 0 := by
  intro t
  induction t with
  | nil => intro _; simp [listMaxAux]
  | cons y t2 ih =>
    intro h
    have hy : y = 0 := h y (List.mem_cons_self y t2)
    subst hy
    rw [listMaxAux]
    split_ifs with h0
    · exact ih (fun x hx => h x (List.mem_cons_of_mem _ hx))
    · exact ih (fun x hx => h x (List.mem_cons_of_mem _ hx))

theorem listMax_of_all_zero {l : List ℚ} (h : ∀ x ∈ l, x = 0) : listMax l = 0 := by
  cases l with
  | nil => rfl
  | cons y t =>
    have hy : y = 0 := h y (List.mem_cons_self y t)
    subst hy
    exact listMaxAux_all_zero t (fun x hx => h x (List.mem_cons_of_mem _ hx))

theorem getD_map_int (f : ℚ → ℤ) (l : List ℚ) (i : ℕ) (h : i < l.length) :
    (l.map f).getD i 0 = f (l.getD i 0) := by
  rw [List.getD_eq_getElem?_getD, List.getD_eq_getElem?_getD, List.getElem?_map,
    List.getElem?_eq_getElem h]
  simp

theorem getD_mem_of_lt {l : List ℚ} {i : ℕ} (h : i < l.length) : l.getD i 0 ∈ l := by
  rw [List.getD_eq_getElem?_getD, List.getElem?_eq_getElem h]
  exact List.getElem_mem h

theorem f16round_zero : f16round 0 = 0 := by decide

theorem rne_zero : rne 0 = 0 := by decide

/-! Q8_0 block quantization.

Source: quantize_f32_to_q8_0 in convert-asr-gguf.py (tagged container variant,
float16 scale) and quantize_f32_to_q8_0 in convert-asr-qmodel.py (flat
container variant, float32 scale).  Both work on 32-element blocks. -/

/-- Maximum of the absolute values of a block; models np.max(np.abs(block)). -/
def absMax (b : List ℚ) : ℚ := listMax (b.map (fun x => |x|))

/-- Tagged-variant block scale: d = amax / 127 if amax > 0 else 0, stored at
float16 precision (convert-asr-gguf.py lines 65-68). -/
def q8TaggedScale (b : List ℚ) : ℚ := f16round (if 0 < absMax b then absMax b / 127 else 0)

/-- Tagged-variant reciprocal: id_val = 1 / float(d_f16) if that is nonzero
else 0 (convert-asr-gguf.py line 69). -/
def q8TaggedRecip (b : List ℚ) : ℚ := if q8TaggedScale b = 0 then 0 else 1 / q8TaggedScale b

/-- Tagged-variant Q8_0 block encoder (convert-asr-gguf.py lines 63-74):
result is the float16 scale together with the 32 signed codes
qs = clip(round(block * id_val), -128, 127). -/
def q8EncodeTagged (b : List ℚ) : ℚ × List ℤ :=
  (q8TaggedScale b, b.map (fun x => clipZ (-128) 127 (rne (x * q8TaggedRecip b))))

/-- Flat-variant block scale: scale = amax / 127 if amax is nonzero else 0,
kept at float32 precision (convert-asr-qmodel.py line 56). -/
def q8FlatScale (b : List ℚ) : ℚ := if absMax b ≠ 0 then absMax b / 127 else 0

/-- Flat-variant Q8_0 block encoder (convert-asr-qmodel.py lines 53-62):
qs = clip(round(block / scale), -128, 127) when the scale is nonzero,
otherwise 32 zero codes. -/
def q8EncodeFlat (b : List ℚ) : ℚ × List ℤ :=
  (q8FlatScale b,
    if q8FlatScale b ≠ 0 then b.map (fun x => clipZ (-128) 127 (rne (x / q8FlatScale b)))
    else List.replicate 32 0)

/-- All codes emitted by a Q8_0 encoder over consecutive 32-element blocks of
the input, mirroring the for-loop over n_blocks in both scripts; the fuel
argument (instantiated with the list length) only bounds the number of
blocks. -/
def q8ChunkCodes (enc : List ℚ → ℚ × List ℤ) : ℕ → List ℚ → List ℤ
  | 0, _ => []
  | _ + 1, [] => []
  | fuel + 1, x :: xs => (enc ((x :: xs).take 32)).2 ++ q8ChunkCodes enc fuel ((x :: xs).drop 32)

/-- Codes of the whole input, block by block. -/
def q8AllCodes (enc : List ℚ → ℚ × List ℤ) (xs : List ℚ) : List ℤ :=
  q8ChunkCodes enc xs.length xs

/-- The per-element code formula exactly as claim C1 states it:
clamp(round(x_i / (1/scale_reduced)), -128, 127). -/
def q8CodeFormulaClaim (b : List ℚ) (i : ℕ) : ℤ :=
  clipZ (-128) 127 (rne (b.getD i 0 / (1 / q8TaggedScale b)))

/-- The amended per-element code formula: the code multiplies by the reduced
scale's reciprocal, clamp(round(x_i * (1/scale_reduced)), -128, 127). -/
def q8CodeFormulaAmended (b : List ℚ) (i : ℕ) : ℤ :=
  clipZ (-128) 127 (rne (b.getD i 0 * (1 / q8TaggedScale b)))

/-- Concrete block refuting the formula of claim C1 as literally stated. -/
def q8BlockC1 : List ℚ := [2, 1] ++ List.replicate 30 (0 : ℚ)

/-- Claim C1, counterexample: on the block with elements 2, 1 and thirty
zeros, the tagged encoder emits code 64 at index 1 (the reduced scale is
129/8192 and 1 / (129/8192) rounds to 64), while the claim's literal formula
clamp(round(x_i / (1/scale_reduced)), -128, 127) evaluates to
round(1 * 129/8192) = 0. -/
theorem q8_claim_formula_cex :
    (q8EncodeTagged q8BlockC1).2.getD 1 0 = 64 ∧ q8CodeFormulaClaim q8BlockC1 1 = 0 := by
  decide

/-- Claim C1 (amended): per 32-element block the tagged encoder stores the
scale amax/127 (0 if amax = 0) at reduced float16 precision, and every code
equals clamp(round(x_i * (1/scale_reduced)), -128, 127), i.e. the element is
divided by the reduced-precision scale via its reciprocal, not multiplied by
it and not divided by the original float32 scale. -/
theorem q8_tagged_code_uses_reduced_scale (b : List ℚ) (i : ℕ) (h : i < b.length) :
    (q8EncodeTagged b).2.getD i 0 = q8CodeFormulaAmended b i ∧
    (q8EncodeTagged b).1 = q8TaggedScale b := by
  refine ⟨?_, rfl⟩
  show (b.map (fun x => clipZ (-128) 127 (rne (x * q8TaggedRecip b)))).getD i 0 = _
  rw [getD_map_int _ _ _ h]
  unfold q8CodeFormulaAmended
  by_cases hz : q8TaggedScale b = 0
  · rw [q8TaggedRecip, if_pos hz, hz]
    norm_num
  · rw [q8TaggedRecip, if_neg hz]

/-- Claim C1, witness: the amended formula agrees with the encoder at index 0
of the counterexample block. -/
theorem q8_tagged_code_uses_reduced_scale_witness :
    (q8EncodeTagged q8BlockC1).2.getD 0 0 = q8CodeFormulaAmended q8BlockC1 0 :=
  (q8_tagged_code_uses_reduced_scale q8BlockC1 0 (by decide)).1

/-- Every code produced by a chunked encoder comes from the encoder applied to
some block. -/
theorem mem_q8ChunkCodes {enc : List ℚ → ℚ × List ℤ} :
    ∀ {fuel : ℕ} {xs : List ℚ} {c : ℤ},
      c ∈ q8ChunkCodes enc fuel xs → ∃ b : List ℚ, c ∈ (enc b).2 := by
  intro fuel
  induction fuel with
  | zero => intro xs c h; simp [q8ChunkCodes] at h
  | succ n ih =>
    intro xs c h
    cases xs with
    | nil => simp [q8ChunkCodes] at h
    | cons x t =>
      rw [q8ChunkCodes] at h
      rcases List.mem_append.mp h with h1 | h2
      · exact ⟨_, h1⟩
      · exact ih h2

/-- Codes of a flat-variant block lie in the interval from -127 to 127. -/
theorem q8FlatBlockCodeBound {b : List ℚ} {c : ℤ} (hc : c ∈ (q8EncodeFlat b).2) :
    -127 ≤ c ∧ c ≤ 127 := by
  by_cases h : q8FlatScale b = 0
  · have hc2 : c ∈ List.replicate 32 (0 : ℤ) := by
      have : (q8EncodeFlat b).2 = List.replicate 32 0 := by
        show (if q8FlatScale b ≠ 0 then _ else _) = _
        rw [if_neg (not_not_intro h)]
      rwa [this] at hc
    have : c = 0 := List.eq_of_mem_replicate hc2
    omega
  · have hc2 : c ∈ b.map (fun x => clipZ (-128) 127 (rne (x / q8FlatScale b))) := by
      have : (q8EncodeFlat b).2 = b.map (fun x => clipZ (-128) 127 (rne (x / q8FlatScale b))) := by
        show (if q8FlatScale b ≠ 0 then _ else _) = _
        rw [if_pos h]
      rwa [this] at hc
    rcases List.mem_map.mp hc2 with ⟨x, hx, rfl⟩
    have hamax : absMax b ≠ 0 := by
      intro h0
      apply h
      rw [q8FlatScale, if_neg (not_not_intro h0)]
    have habs : |x| ≤ absMax b := le_listMax (List.mem_map_of_mem _ hx)
    have hnn : (0 : ℚ) ≤ absMax b := le_trans (abs_nonneg x) habs
    have hpos : 0 < absMax b := lt_of_le_of_ne hnn (Ne.symm hamax)
    have hsc : q8FlatScale b = absMax b / 127 := by rw [q8FlatScale, if_pos hamax]
    have hscpos : 0 < q8FlatScale b := by rw [hsc]; positivity
    have hb127 : |x / q8FlatScale b| ≤ 127 := by
      rw [abs_div, abs_of_pos hscpos, div_le_iff₀ hscpos, hsc]
      calc |x| ≤ absMax b := habs
        _ = 127 * (absMax b / 127) := by ring
    rw [abs_le] at hb127
    have h1 : rne (x / q8FlatScale b) ≤ 127 := rne_le_int (by exact_mod_cast hb127.2)
    have h2 : (-127 : ℤ) ≤ rne (x / q8FlatScale b) := int_le_rne (by push_cast; linarith [hb127.1])
    rw [clipZ_of_le_of_le (by omega) h1]
    exact ⟨h2, h1⟩

/-- Concrete 32-element block whose tagged encoding contains the code -128:
the float32 scale amax/127 is subnormal in float16 and rounds down to
2 to the -24, so round(x_0 / scale_reduced) = -178, clipped to -128. -/
def q8BlockNeg : List ℚ := (-(89/8388608)) :: List.replicate 31 (0 : ℚ)

/-- Claim C2, counterexample: the tagged Q8_0 encoder emits the code -128 on a
32-element input, so the invariant that the absolute value of every code is at
most 127 fails for the tagged container variant. -/
theorem q8_tagged_neg128_cex : (-128 : ℤ) ∈ q8AllCodes q8EncodeTagged q8BlockNeg := by
  decide

/-- Claim C2 (amended): for every input whose length is a multiple of 32, the
flat-variant codes satisfy -127 ≤ code ≤ 127, so -128 never appears there; the
tagged-variant codes only satisfy -128 ≤ code ≤ 127, and -128 is attainable
when the float16-reduced scale rounds below the true scale (subnormal range),
as the counterexample shows. -/
theorem q8_code_range_by_variant :
    (∀ xs : List ℚ, 32 ∣ xs.length →
      ∀ c ∈ q8AllCodes q8EncodeFlat xs, -127 ≤ c ∧ c ≤ 127) ∧
    (∀ xs : List ℚ, 32 ∣ xs.length →
      ∀ c ∈ q8AllCodes q8EncodeTagged xs, -128 ≤ c ∧ c ≤ 127) := by
  constructor
  · intro xs _ c hc
    obtain ⟨b, hb⟩ := mem_q8ChunkCodes hc
    exact q8FlatBlockCodeBound hb
  · intro xs _ c hc
    obtain ⟨b, hb⟩ := mem_q8ChunkCodes hc
    rcases List.mem_map.mp hb with ⟨x, _, rfl⟩
    exact clipZ_mem (by omega) _

/-- Claim C2, witness: the flat-variant bound applied at a block of 32 ones,
whose codes include 127. -/
theorem q8_code_range_by_variant_witness : -127 ≤ (127 : ℤ) ∧ (127 : ℤ) ≤ 127 :=
  q8_code_range_by_variant.1 (List.replicate 32 1) (by decide) 127 (by decide)

/-- Concrete 32-element block on which the tagged-variant decode error exceeds
the stored scale: the float16 scale underflows to 2 to the -24 while the
element is 178 times that, so the clipped code 127 decodes 51 steps away. -/
def q8BlockPos : List ℚ := (89/8388608) :: List.replicate 31 (0 : ℚ)

/-- Claim C4, counterexample: for the tagged Q8_0 encoder there is a
32-element block on which the reconstruction stored_scale * code differs from
the original element by more than the stored scale. -/
theorem q8_tagged_roundtrip_cex :
    (q8EncodeTagged q8BlockPos).1 <
      |(q8EncodeTagged q8BlockPos).1 * ((q8EncodeTagged q8BlockPos).2.getD 0 0 : ℚ) -
        q8BlockPos.getD 0 0| := by
  decide

/-- Claim C4 (amended): for every 32-element block, decoding the flat-variant
Q8_0 encoding reproduces each element within one quantization step,
|stored_scale * code_i - x_i| ≤ stored_scale, and an all-zero block encodes to
scale 0 with all 32 codes 0 in both variants.  (For the tagged variant the
bound can fail when the float16-reduced scale rounds below the true scale, as
the counterexample shows.) -/
theorem q8_flat_roundtrip_bound (b : List ℚ) (hb : b.length = 32) :
    (∀ i, i < 32 →
      |(q8EncodeFlat b).1 * ((q8EncodeFlat b).2.getD i 0 : ℚ) - b.getD i 0| ≤
        (q8EncodeFlat b).1) ∧
    ((∀ x ∈ b, x = 0) →
      (q8EncodeFlat b).1 = 0 ∧ (q8EncodeFlat b).2 = List.replicate 32 0 ∧
      (q8EncodeTagged b).1 = 0 ∧ ∀ c ∈ (q8EncodeTagged b).2, c = 0) := by
  constructor
  · intro i hi
    have hilen : i < b.length := by rw [hb]; exact hi
    have hxmem : b.getD i 0 ∈ b := getD_mem_of_lt hilen
    by_cases hmax : absMax b = 0
    · -- an all-zero block: scale 0, replicated zero codes, zero elements
      have hx0 : b.getD i 0 = 0 := by
        have h1 : |b.getD i 0| ≤ absMax b := le_listMax (List.mem_map_of_mem _ hxmem)
        rw [hmax] at h1
        have h2 : (0 : ℚ) ≤ |b.getD i 0| := abs_nonneg _
        have : |b.getD i 0| = 0 := le_antisymm h1 h2
        exact abs_eq_zero.mp this
      have hsc : q8FlatScale b = 0 := by rw [q8FlatScale, if_neg (not_not_intro hmax)]
      have hcode : (q8EncodeFlat b).2 = List.replicate 32 0 := by
        show (if q8FlatScale b ≠ 0 then _ else _) = _
        rw [if_neg (not_not_intro hsc)]
      show |(q8FlatScale b) * _ - _| ≤ q8FlatScale b
      rw [hsc, hcode, hx0]
      simp
    · have hsc : q8FlatScale b = absMax b / 127 := by rw [q8FlatScale, if_pos hmax]
      have habs : |b.getD i 0| ≤ absMax b := le_listMax (List.mem_map_of_mem _ hxmem)
      have hnn : (0 : ℚ) ≤ absMax b := le_trans (abs_nonneg _) habs
      have hpos : 0 < absMax b := lt_of_le_of_ne hnn (Ne.symm hmax)
      have hscpos : 0 < q8FlatScale b := by rw [hsc]; positivity
      have hscne : q8FlatScale b ≠ 0 := ne_of_gt hscpos
      have hcode : (q8EncodeFlat b).2 =
          b.map (fun x => clipZ (-128) 127 (rne (x / q8FlatScale b))) := by
        show (if q8FlatScale b ≠ 0 then _ else _) = _
        rw [if_pos hscne]
      show |(q8FlatScale b) * _ - _| ≤ q8FlatScale b
      rw [hcode, getD_map_int _ _ _ hilen]
      have hb127 : |b.getD i 0 / q8FlatScale b| ≤ 127 := by
        rw [abs_div, abs_of_pos hscpos, div_le_iff₀ hscpos, hsc]
        calc |b.getD i 0| ≤ absMax b := habs
          _ = 127 * (absMax b / 127) := by ring
      rw [abs_le] at hb127
      have h1 : rne (b.getD i 0 / q8FlatScale b) ≤ 127 := rne_le_int (by exact_mod_cast hb127.2)
      have h2 : (-128 : ℤ) ≤ rne (b.getD i 0 / q8FlatScale b) := by
        have := int_le_rne (B := -127) (q := b.getD i 0 / q8FlatScale b)
          (by push_cast; linarith [hb127.1])
        omega
      rw [clipZ_of_le_of_le h2 h1]
      have hxeq : b.getD i 0 = (b.getD i 0 / q8FlatScale b) * q8FlatScale b :=
        (div_mul_cancel₀ _ hscne).symm
      have hkey : q8FlatScale b * (rne (b.getD i 0 / q8FlatScale b) : ℚ) - b.getD i 0 =
          q8FlatScale b * ((rne (b.getD i 0 / q8FlatScale b) : ℚ) - b.getD i 0 / q8FlatScale b) := by
        rw [mul_sub]
        congr 1
        rw [mul_comm]
        exact (div_mul_cancel₀ _ hscne).symm
      rw [hkey, abs_mul, abs_of_pos hscpos]
      have hround := rne_sub_abs_le (b.getD i 0 / q8FlatScale b)
      calc q8FlatScale b * |(rne (b.getD i 0 / q8FlatScale b) : ℚ) - b.getD i 0 / q8FlatScale b| ≤
          q8FlatScale b * (1/2) := mul_le_mul_of_nonneg_left hround (le_of_lt hscpos)
        _ ≤ q8FlatScale b := by linarith
  · intro hz
    have hmax : absMax b = 0 := by
      apply listMax_of_all_zero
      intro y hy
      rcases List.mem_map.mp hy with ⟨x, hx, rfl⟩
      rw [hz x hx]
      exact abs_zero
    have hsc : q8FlatScale b = 0 := by rw [q8FlatScale, if_neg (not_not_intro hmax)]
    have htag : q8TaggedScale b = 0 := by
      rw [q8TaggedScale, hmax]
      norm_num
      exact f16round_zero
    refine ⟨hsc, ?_, htag, ?_⟩
    · show (if q8FlatScale b ≠ 0 then _ else _) = _
      rw [if_neg (not_not_intro hsc)]
    · intro c hc
      rcases List.mem_map.mp hc with ⟨x, hx, rfl⟩
      have hrecip : q8TaggedRecip b = 0 := by rw [q8TaggedRecip, if_pos htag]
      rw [hrecip, mul_zero, rne_zero]
      decide

/-- Claim C4, witness: the all-zero 32-element block encodes to scale 0 and 32
zero codes in the flat variant, and the element at index 0 satisfies the
round-trip bound. -/
theorem q8_flat_roundtrip_bound_witness :
    |(q8EncodeFlat (List.replicate 32 (0 : ℚ))).1 *
        ((q8EncodeFlat (List.replicate 32 (0 : ℚ))).2.getD 0 0 : ℚ) -
      (List.replicate 32 (0 : ℚ)).getD 0 0| ≤ (q8EncodeFlat (List.replicate 32 (0 : ℚ))).1 ∧
    (q8EncodeFlat (List.replicate 32 (0 : ℚ))).1 = 0 ∧
    (q8EncodeFlat (List.replicate 32 (0 : ℚ))).2 = List.replicate 32 0 := by
  have h := q8_flat_roundtrip_bound (List.replicate 32 (0 : ℚ)) (by decide)
  have h2 := h.2 (fun x hx => List.eq_of_mem_replicate hx)
  exact ⟨h.1 0 (by decide), h2.1, h2.2.1⟩

/-! Q4_K super-block quantization.

Source: quantize_f32_to_q4_K in convert-asr-gguf.py (lines 79-179).  A
super-block of 256 elements is split into 8 sub-blocks of 32; each sub-block
gets an asymmetric scale and min, quantized to 6 bits against the super-block
maxima, and each element gets a 4-bit code. -/

/-- Sub-block j of a 256-element super-block: block[j*32:(j+1)*32]. -/
def q4kSub (b : List ℚ) (j : ℕ) : List ℚ := (b.drop (32 * j)).take 32

/-- Raw sub-block scale: (sub_max - sub_min) / 15, or 0 for a constant
sub-block (lines 99-108). -/
def q4kScaleRaw (b : List ℚ) (j : ℕ) : ℚ :=
  if listMax (q4kSub b j) = listMin (q4kSub b j) then 0
  else (listMax (q4kSub b j) - listMin (q4kSub b j)) / 15

/-- Raw sub-block min parameter: mins[j] = -sub_min (lines 105, 108); note
this is negative whenever the sub-block minimum is positive. -/
def q4kMinRaw (b : List ℚ) (j : ℕ) : ℚ := - listMin (q4kSub b j)

/-- Super-block maximum of the raw sub-block scales (line 111). -/
def q4kMaxScale (b : List ℚ) : ℚ := listMax ((List.range 8).map (q4kScaleRaw b))

/-- Super-block maximum of the raw sub-block mins (line 112). -/
def q4kMaxMin (b : List ℚ) : ℚ := listMax ((List.range 8).map (q4kMinRaw b))

/-- inv_max_scale = 63 / max_scale if max_scale > 0 else 0 (lines 114-117). -/
def q4kInvMaxScale (b : List ℚ) : ℚ := if 0 < q4kMaxScale b then 63 / q4kMaxScale b else 0

/-- inv_max_min = 63 / max_min if max_min > 0 else 0 (lines 119-122). -/
def q4kInvMaxMin (b : List ℚ) : ℚ := if 0 < q4kMaxMin b then 63 / q4kMaxMin b else 0

/-- Super-block scale d = float16(max_scale / 63) (line 124). -/
def q4kD (b : List ℚ) : ℚ := f16round (q4kMaxScale b / 63)

/-- Super-block min scale dmin = float16(max_min / 63) (line 125). -/
def q4kDmin (b : List ℚ) : ℚ := f16round (q4kMaxMin b / 63)

/-- Quantized 6-bit sub-block scale before storage:
min(63, round(scales[j] * inv_max_scale)) (line 131); always nonnegative
because raw scales are nonnegative. -/
def q4kQScale (b : List ℚ) (j : ℕ) : ℤ := min 63 (rne (q4kScaleRaw b j * q4kInvMaxScale b))

/-- Quantized 6-bit sub-block min before storage:
min(63, round(mins[j] * inv_max_min)) (line 132); the script applies no lower
clamp, so this is negative when mins[j] is negative and inv_max_min > 0. -/
def q4kQMin (b : List ℚ) (j : ℕ) : ℤ := min 63 (rne (q4kMinRaw b j * q4kInvMaxMin b))

/-- The value that actually lands in the uint8 array q_mins: out-of-range
Python integers wrap modulo 256 on NumPy 1.x (line 132). -/
def q4kQMinStored (b : List ℚ) (j : ℕ) : ℤ := q4kQMin b j % 256

/-- The 6-bit min quantization formula as the spec and claim C3 state it:
clamp(round(raw_min_j * 63 / max_min), 0, 63). -/
def q4kQMinFormulaSpec (b : List ℚ) (j : ℕ) : ℤ :=
  clipZ 0 63 (rne (q4kMinRaw b j * q4kInvMaxMin b))

/-- Per-sub-block effective scale used to compute codes:
sc = d * q_scales[j] (line 157). -/
def q4kSc (b : List ℚ) (j : ℕ) : ℚ := q4kD b * (q4kQScale b j : ℚ)

/-- Per-sub-block effective min used to compute codes: mn = dmin * q_mins[j],
where q_mins[j] is the stored uint8 value (line 158). -/
def q4kMn (b : List ℚ) (j : ℕ) : ℚ := q4kDmin b * (q4kQMinStored b j : ℚ)

/-- The 4-bit code of element l of sub-block j:
q = round((x + mn) / sc) if sc > 0 else 0, then clamped to the interval from
0 to 15 (lines 159-166). -/
def q4kCode (b : List ℚ) (j l : ℕ) : ℤ :=
  clipZ 0 15 (if 0 < q4kSc b j then rne ((b.getD (32 * j + l) 0 + q4kMn b j) / q4kSc b j) else 0)

/-- The documented Q4_K reconstruction of element l of sub-block j:
decoded = d * q_scale_j * code - dmin * q_min_j. -/
def q4kDecode (b : List ℚ) (j l : ℕ) : ℚ := q4kSc b j * (q4kCode b j l : ℚ) - q4kMn b j

/-- A 256-element super-block whose sub-block 0 is thirty-two times -1 and
whose sub-blocks 1 to 7 are thirty-two times 1: every sub-block is constant,
so all raw scales are 0, while mins[0] = 1 and mins[j] = -1 for j ≥ 1, giving
max_min = 1 and a quantized min of round(-63) = -63 for j ≥ 1. -/
def q4kBugBlock : List ℚ := List.replicate 32 (-1 : ℚ) ++ List.replicate 224 (1 : ℚ)

/-- Claim C3: on the block above the script computes the 6-bit min value -63
for sub-block 1, which wraps to 193 in the uint8 scale array on NumPy 1.x
(and raises OverflowError on NumPy 2), while the formula stated by the spec,
clamp(round(raw_min * 63 / max_min), 0, 63), yields 0; the quantized min is
not in the interval from 0 to 63. -/
theorem q4k_negative_qmin_eval :
    q4kQMin q4kBugBlock 1 = -63 ∧ q4kQMinStored q4kBugBlock 1 = 193 ∧
    q4kQMinFormulaSpec q4kBugBlock 1 = 0 := by
  decide

/-- The 256-element super-block used to refute the decode-error bound of claim
C5: each of the 8 sub-blocks is 0, 1/2, 15 followed by twenty-nine zeros. -/
def q4kErrBlock : List ℚ :=
  (List.replicate 8 ([0, 1/2, 15] ++ List.replicate 29 (0 : ℚ))).flatten

/-- Claim C5, counterexample: on the block above the element 1/2 of sub-block
0 decodes to 4095/4096, an error of 2047/4096, which exceeds the claimed
bound max_scale / 63 = 1/63. -/
theorem q4k_claim_bound_cex :
    q4kMaxScale q4kErrBlock / 63 <
      |q4kDecode q4kErrBlock 0 1 - q4kErrBlock.getD 1 0| := by
  decide

/-- Claim C5 (amended): whenever the effective sub-block scale
sc = d * q_scale_j is positive and the rounded code lies in the interval from
0 to 15 (so the 4-bit clamp is inactive), the per-element decode error of the
documented reconstruction is bounded by half that step, sc / 2.  The bound
max_scale / 63 stated by the claim is refuted by the counterexample. -/
theorem q4k_decode_halfstep_bound (b : List ℚ) (j l : ℕ)
    (hsc : 0 < q4kSc b j)
    (h0 : 0 ≤ rne ((b.getD (32 * j + l) 0 + q4kMn b j) / q4kSc b j))
    (h15 : rne ((b.getD (32 * j + l) 0 + q4kMn b j) / q4kSc b j) ≤ 15) :
    |q4kDecode b j l - b.getD (32 * j + l) 0| ≤ q4kSc b j / 2 := by
  have hne : q4kSc b j ≠ 0 := ne_of_gt hsc
  have hcode : q4kCode b j l = rne ((b.getD (32 * j + l) 0 + q4kMn b j) / q4kSc b j) := by
    unfold q4kCode
    rw [if_pos hsc]
    exact clipZ_of_le_of_le h0 h15
  unfold q4kDecode
  rw [hcode]
  have hprod : ((b.getD (32 * j + l) 0 + q4kMn b j) / q4kSc b j) * q4kSc b j =
      b.getD (32 * j + l) 0 + q4kMn b j := div_mul_cancel₀ _ hne
  have hkey : q4kSc b j * (rne ((b.getD (32 * j + l) 0 + q4kMn b j) / q4kSc b j) : ℚ) -
      q4kMn b j - b.getD (32 * j + l) 0 =
      q4kSc b j * ((rne ((b.getD (32 * j + l) 0 + q4kMn b j) / q4kSc b j) : ℚ) -
        (b.getD (32 * j + l) 0 + q4kMn b j) / q4kSc b j) := by
    rw [mul_sub]
    rw [mul_comm (q4kSc b j) ((b.getD (32 * j + l) 0 + q4kMn b j) / q4kSc b j), hprod]
    ring
  rw [hkey, abs_mul, abs_of_pos hsc]
  have hround := rne_sub_abs_le ((b.getD (32 * j + l) 0 + q4kMn b j) / q4kSc b j)
  calc q4kSc b j * |(rne ((b.getD (32 * j + l) 0 + q4kMn b j) / q4kSc b j) : ℚ) -
        (b.getD (32 * j + l) 0 + q4kMn b j) / q4kSc b j| ≤ q4kSc b j * (1/2) :=
      mul_le_mul_of_nonneg_left hround (le_of_lt hsc)
    _ = q4kSc b j / 2 := by ring

/-- Claim C5, witness: the half-step bound applied at sub-block 0, element 1
of the counterexample block, where sc = 4095/4096 and the code is 1. -/
theorem q4k_decode_halfstep_bound_witness :
    |q4kDecode q4kErrBlock 0 1 - q4kErrBlock.getD (32 * 0 + 1) 0| ≤ q4kSc q4kErrBlock 0 / 2 :=
  q4k_decode_halfstep_bound q4kErrBlock 0 1 (by decide) (by decide) (by decide)

/-! Tagged-container tensor-directory offsets.

Source: GGUFWriter.write in convert-asr-gguf.py, lines 218-226: starting from
0, each tensor's offset is the current position aligned up to a 32-byte
boundary, after which the position advances by the payload length. -/

/-- Align a position up to the next 32-byte boundary; for the power-of-two
alignment 32, (x + 31) band bnot 31 from the script equals
(x + 31) - (x + 31) % 32. -/
def alignUp32 (x : ℕ) : ℕ := (x + 31) - (x + 31) % 32

/-- Offsets of consecutive tensors given their payload byte lengths, starting
from the running position cur. -/
def ggufOffsetsAux (cur : ℕ) : List ℕ → List ℕ
  | [] => []
  | l :: ls => alignUp32 cur :: ggufOffsetsAux (alignUp32 cur + l) ls

/-- Tensor-directory offsets for the given payload lengths (first pass of
GGUFWriter.write, beginning at offset 0). -/
def ggufOffsets (lens : List ℕ) : List ℕ := ggufOffsetsAux 0 lens

theorem alignUp32_dvd (x : ℕ) : 32 ∣ alignUp32 x := by
  refine ⟨(x + 31) / 32, ?_⟩
  unfold alignUp32
  omega

theorem le_alignUp32 (x : ℕ) : x ≤ alignUp32 x := by
  unfold alignUp32
  omega

theorem alignUp32_add_left {o : ℕ} (h : 32 ∣ o) (l : ℕ) : alignUp32 (o + l) = o + alignUp32 l := by
  obtain ⟨k, rfl⟩ := h
  unfold alignUp32
  omega

theorem ggufOffsetsAux_spec : ∀ (lens : List ℕ) (cur : ℕ) (i : ℕ),
    32 ∣ (ggufOffsetsAux cur lens).getD i 0 ∧
    (i + 1 < lens.length →
      (ggufOffsetsAux cur lens).getD (i + 1) 0 =
        (ggufOffsetsAux cur lens).getD i 0 + alignUp32 (lens.getD i 0)) := by
  intro lens
  induction lens with
  | nil =>
    intro cur i
    constructor
    · simp [ggufOffsetsAux]
    · intro h
      simp at h
  | cons l ls ih =>
    intro cur i
    cases i with
    | zero =>
      constructor
      · show 32 ∣ (alignUp32 cur :: ggufOffsetsAux (alignUp32 cur + l) ls).getD 0 0
        exact alignUp32_dvd cur
      · intro h
        cases ls with
        | nil => simp at h
        | cons l2 ls2 =>
          show (ggufOffsetsAux (alignUp32 cur + l) (l2 :: ls2)).getD 0 0 =
            alignUp32 cur + alignUp32 ((l :: l2 :: ls2).getD 0 0)
          show alignUp32 (alignUp32 cur + l) = alignUp32 cur + alignUp32 l
          exact alignUp32_add_left (alignUp32_dvd cur) l
    | succ i2 =>
      have hih := ih (alignUp32 cur + l) i2
      constructor
      · exact hih.1
      · intro h
        have hlen : i2 + 1 < ls.length := by
          simpa using Nat.lt_of_succ_lt_succ h
        exact hih.2 hlen

/-- Claim C6: in the tagged container, every directory offset is a multiple
of 32; moreover each consecutive offset equals the previous offset plus the
previous payload length padded up to the 32-byte boundary, and offsets are
strictly increasing across tensors with non-empty payloads. -/
theorem gguf_offsets_spec (lens : List ℕ) :
    (∀ i : ℕ, 32 ∣ (ggufOffsets lens).getD i 0) ∧
    (∀ i : ℕ, i + 1 < lens.length →
      (ggufOffsets lens).getD (i + 1) 0 =
        (ggufOffsets lens).getD i 0 + alignUp32 (lens.getD i 0) ∧
      (lens.getD i 0 ≠ 0 →
        (ggufOffsets lens).getD i 0 < (ggufOffsets lens).getD (i + 1) 0)) := by
  constructor
  · intro i
    exact (ggufOffsetsAux_spec lens 0 i).1
  · intro i h
    have hgap := (ggufOffsetsAux_spec lens 0 i).2 h
    refine ⟨hgap, ?_⟩
    intro hne
    have h1 : lens.getD i 0 ≤ alignUp32 (lens.getD i 0) := le_alignUp32 _
    show (ggufOffsetsAux 0 lens).getD i 0 < (ggufOffsetsAux 0 lens).getD (i + 1) 0
    rw [hgap]
    omega

/-- Claim C6, witness: for payload lengths 4 and 40 the offsets are 0 and 32;
both are multiples of 32, the gap is the padded length of the first payload,
and the offsets strictly increase. -/
theorem gguf_offsets_spec_witness :
    32 ∣ (ggufOffsets [4, 40]).getD 0 0 ∧
    (ggufOffsets [4, 40]).getD 1 0 =
      (ggufOffsets [4, 40]).getD 0 0 + alignUp32 (([4, 40] : List ℕ).getD 0 0) ∧
    (ggufOffsets [4, 40]).getD 0 0 < (ggufOffsets [4, 40]).getD 1 0 :=
  ⟨(gguf_offsets_spec [4, 40]).1 0,
   ((gguf_offsets_spec [4, 40]).2 0 (by decide)).1,
   ((gguf_offsets_spec [4, 40]).2 0 (by decide)).2 (by decide)⟩

/-! Gate/up row interleaving.

Source: convert-asr-gguf.py lines 520-529 and convert-asr-qmodel.py lines
385-397: fused[0::2] = gate, fused[1::2] = up for matrices of equal shape. -/

/-- Row interleaving of two equal-length row lists:
fused[2r] = gate[r], fused[2r+1] = up[r]. -/
def interleaveRows {α : Type} : List α → List α → List α
  | [], _ => []
  | _, [] => []
  | g :: gs, u :: us => g :: u :: interleaveRows gs us

/-- Claim C7: for gate and up matrices with the same number of rows, the fused
matrix built before quantization has the gate row r at index 2r and the up
row r at index 2r+1; in particular for gate [[1, 2]] and up [[3, 4]] the
fused matrix is [[1, 2], [3, 4]]. -/
theorem gate_up_interleave :
    (∀ (g u : List (List ℚ)) (r : ℕ), g.length = u.length → r < g.length →
      (interleaveRows g u).getD (2 * r) [] = g.getD r [] ∧
      (interleaveRows g u).getD (2 * r + 1) [] = u.getD r []) ∧
    interleaveRows [[(1 : ℚ), 2]] [[3, 4]] = [[1, 2], [3, 4]] := by
  constructor
  · intro g
    induction g with
    | nil =>
      intro u r _ hr
      simp at hr
    | cons gr gs ih =>
      intro u r hlen hr
      cases u with
      | nil => simp at hlen
      | cons ur us =>
        cases r with
        | zero =>
          constructor <;> simp [interleaveRows]
        | succ r2 =>
          have hlen2 : gs.length = us.length := by simpa using hlen
          have hr2 : r2 < gs.length := Nat.lt_of_succ_lt_succ hr
          have hih := ih us r2 hlen2 hr2
          constructor
          · have harith : 2 * (r2 + 1) = 2 * r2 + 1 + 1 := by ring
            rw [harith]
            simpa [interleaveRows] using hih.1
          · have harith : 2 * (r2 + 1) + 1 = 2 * r2 + 1 + 1 + 1 := by ring
            rw [harith]
            simpa [interleaveRows] using hih.2
  · decide

/-- Claim C7, witness: the interleaving equations applied at row 0 of the toy
matrices. -/
theorem gate_up_interleave_witness :
    (interleaveRows [[(1 : ℚ), 2]] [[3, 4]]).getD (2 * 0) [] = [[(1 : ℚ), 2]].getD 0 [] ∧
    (interleaveRows [[(1 : ℚ), 2]] [[3, 4]]).getD (2 * 0 + 1) [] = [[(3 : ℚ), 4]].getD 0 [] :=
  gate_up_interleave.1 [[(1 : ℚ), 2]] [[(3 : ℚ), 4]] 0 rfl (by decide)

/-! Output-file behaviour.

Source: GGUFWriter.write in convert-asr-gguf.py (line 202) executes
open(path, 'wb') on the destination path itself and streams the container
into it; convert in convert-asr-qmodel.py (line 271) likewise executes
open(output_path, 'wb') on the destination.  Neither script creates a
temporary file or renames anything. -/

/-- A file operation performed by a converter run. -/
inductive FileOp where
  | openWrite (path : String)
  | writeBytes (count : ℕ)
  | closeFile
  | renameFile (src dst : String)
deriving DecidableEq

/-- Whether an operation is a rename. -/
def isRenameOp : FileOp → Bool
  | FileOp.renameFile _ _ => true
  | _ => false

/-- File interaction of GGUFWriter.write: open the destination path, write
the header, metadata, tensor directory, padding and payloads (abstracted as a
list of chunk byte counts), close.  No temporary file, no rename. -/
def ggufWriteTrace (chunks : List ℕ) (path : String) : List FileOp :=
  FileOp.openWrite path :: (chunks.map FileOp.writeBytes ++ [FileOp.closeFile])

/-- File interaction of convert in the flat converter: open the destination
path, write the 128-byte header and the tensor payloads in table order
(abstracted as a list of chunk byte counts), close.  No temporary file, no
rename. -/
def qmodelWriteTrace (chunks : List ℕ) (path : String) : List FileOp :=
  FileOp.openWrite path :: (chunks.map FileOp.writeBytes ++ [FileOp.closeFile])

/-- Destination path used in the concrete write-trace statements. -/
def outPath : String := "model.out"

/-- Claim C8, counterexample: concrete converter traces open the destination
path itself as their first operation and contain no rename at all, so the
output is not written to a temporary path and renamed on success. -/
theorem writers_no_rename_cex :
    (ggufWriteTrace [24, 64] outPath).head? = some (FileOp.openWrite outPath) ∧
    (ggufWriteTrace [24, 64] outPath).any isRenameOp = false ∧
    (qmodelWriteTrace [128, 36] outPath).head? = some (FileOp.openWrite outPath) ∧
    (qmodelWriteTrace [128, 36] outPath).any isRenameOp = false := by
  decide

/-- Claim C8 (amended): both converters open the final destination path
directly for writing as their first file operation, and every operation of a
run is that open, a chunk write, or the close; in particular no rename (and no
second open of a temporary path) ever occurs, so a run that fails mid-write
can leave a partial output at the destination. -/
theorem writers_open_destination_directly :
    (∀ (chunks : List ℕ) (path : String),
      (ggufWriteTrace chunks path).head? = some (FileOp.openWrite path) ∧
      (∀ op ∈ ggufWriteTrace chunks path,
        op = FileOp.openWrite path ∨ (∃ n, op = FileOp.writeBytes n) ∨ op = FileOp.closeFile)) ∧
    (∀ (chunks : List ℕ) (path : String),
      (qmodelWriteTrace chunks path).head? = some (FileOp.openWrite path) ∧
      (∀ op ∈ qmodelWriteTrace chunks path,
        op = FileOp.openWrite path ∨ (∃ n, op = FileOp.writeBytes n) ∨ op = FileOp.closeFile)) := by
  constructor <;> intro chunks path <;> refine ⟨rfl, ?_⟩ <;> intro op hop <;>
    rcases List.mem_cons.mp hop with rfl | h2
  · left; rfl
  · rcases List.mem_append.mp h2 with h3 | h4
    · rcases List.mem_map.mp h3 with ⟨n, _, rfl⟩
      right; left; exact ⟨n, rfl⟩
    · right; right; simpa using h4
  · left; rfl
  · rcases List.mem_append.mp h2 with h3 | h4
    · rcases List.mem_map.mp h3 with ⟨n, _, rfl⟩
      right; left; exact ⟨n, rfl⟩
    · right; right; simpa using h4

/-- Claim C8, witness: the amended statement applied to a concrete trace and
the close operation it contains. -/
theorem writers_open_destination_directly_witness :
    (ggufWriteTrace [24] outPath).head? = some (FileOp.openWrite outPath) ∧
    (FileOp.closeFile = FileOp.openWrite outPath ∨
      (∃ n, FileOp.closeFile = FileOp.writeBytes n) ∨ FileOp.closeFile = FileOp.closeFile) :=
  ⟨(writers_open_destination_directly.1 [24] outPath).1,
   (writers_open_destination_directly.1 [24] outPath).2 FileOp.closeFile (by decide)⟩

/-! Architecture-variant selection.

Source: convert-asr-gguf.py line 335 selects the variant with the total
conditional expression enc_layers > 18, and convert-asr-qmodel.py line 251
selects it by the presence of the tensor
thinker.audio_tower.layers.18.self_attn.q_proj.weight; neither script defines
or raises any UnknownVariantError. -/

/-- Variant label of the larger model. -/
def variantBig : String := "1.7B"

/-- Variant label of the smaller model. -/
def variantSmall : String := "0.6B"

/-- Tagged-converter variant selection (convert-asr-gguf.py line 335). -/
def ggufSelectVariant (encLayers : ℕ) : String :=
  if 18 < encLayers then variantBig else variantSmall

/-- Tensor whose presence selects the larger variant in the flat converter. -/
def qmodelTensorKey : String := "thinker.audio_tower.layers.18.self_attn.q_proj.weight"

/-- Flat-converter variant selection (convert-asr-qmodel.py line 251): a pure
function of the set of tensor names present in the source. -/
def qmodelSelectVariant (tensorNames : List String) : String :=
  if qmodelTensorKey ∈ tensorNames then variantBig else variantSmall

/-- Claim C9, counterexample: an encoder layer count of 19 matches neither
supported configuration (18 layers for 0.6B, 24 for 1.7B), yet the tagged
converter proceeds with the 1.7B variant; likewise a source with no tensors at
all makes the flat converter proceed with the 0.6B variant.  No failure
occurs. -/
theorem variant_selection_no_error_cex :
    (([18, 24] : List ℕ).contains 19) = false ∧
    ggufSelectVariant 19 = variantBig ∧
    qmodelSelectVariant [] = variantSmall := by
  decide

/-- Claim C9 (amended): variant selection in both converters is a total
two-way branch that always yields one of the two supported variants (tagged:
1.7B exactly when enc_layers > 18; flat: 1.7B exactly when the probe tensor is
present); inputs matching neither configuration are not rejected, and no
UnknownVariantError exists in either script. -/
theorem variant_selection_total :
    (∀ encLayers : ℕ,
      ggufSelectVariant encLayers = variantBig ∨ ggufSelectVariant encLayers = variantSmall) ∧
    (∀ tensorNames : List String,
      qmodelSelectVariant tensorNames = variantBig ∨
        qmodelSelectVariant tensorNames = variantSmall) := by
  constructor
  · intro n
    unfold ggufSelectVariant
    split_ifs
    · exact Or.inl rfl
    · exact Or.inr rfl
  · intro names
    unfold qmodelSelectVariant
    split_ifs
    · exact Or.inl rfl
    · exact Or.inr rfl

/-! The flat-container 128-byte header.

Source: convert-asr-qmodel.py.  The convert function never opens or reads
config.json (the json import is unused); get_config (lines 121-154) returns
one of two hardcoded tables keyed by the detected variant, and write_header
(lines 157-184) packs magic, version and the thirteen table values as
little-endian unsigned 32-bit integers, zero-padded to 128 bytes. -/

/-- The thirteen integer hyperparameters of the flat-container header. -/
structure QModelConfig where
  encDModel : ℕ
  encLayers : ℕ
  encHeads : ℕ
  encHeadDim : ℕ
  encFfnDim : ℕ
  encOutputDim : ℕ
  decHidden : ℕ
  decLayers : ℕ
  decHeads : ℕ
  decKvHeads : ℕ
  decHeadDim : ℕ
  decIntermediate : ℕ
  vocabSize : ℕ

/-- The two hardcoded configuration tables of get_config. -/
def qmodelGetConfig (variant : String) : QModelConfig :=
  if variant = variantBig then
    ⟨1024, 24, 16, 64, 4096, 2048, 2048, 28, 16, 8, 128, 6144, 151936⟩
  else
    ⟨896, 18, 14, 64, 3584, 1024, 1024, 28, 16, 8, 128, 3072, 151936⟩

/-- Little-endian byte expansion of an unsigned 32-bit value. -/
def u32le (n : ℕ) : List ℕ := [n % 256, n / 256 % 256, n / 65536 % 256, n / 16777216 % 256]

/-- The 128-byte header of write_header: magic 0x384D5141, version 1, the
thirteen hyperparameters, then zero padding to 128 bytes. -/
def qmodelWriteHeader (cfg : QModelConfig) : List ℕ :=
  u32le 0x384D5141 ++ u32le 1 ++
  u32le cfg.encDModel ++ u32le cfg.encLayers ++ u32le cfg.encHeads ++ u32le cfg.encHeadDim ++
  u32le cfg.encFfnDim ++ u32le cfg.encOutputDim ++ u32le cfg.decHidden ++ u32le cfg.decLayers ++
  u32le cfg.decHeads ++ u32le cfg.decKvHeads ++ u32le cfg.decHeadDim ++
  u32le cfg.decIntermediate ++ u32le cfg.vocabSize ++ List.replicate 68 0

/-- The header bytes emitted by the flat converter, as a function of the set
of tensor names present in the source; the configuration document is never
consulted. -/
def qmodelHeaderBytes (tensorNames : List String) : List ℕ :=
  qmodelWriteHeader (qmodelGetConfig (qmodelSelectVariant tensorNames))

theorem qmodelWriteHeader_length (cfg : QModelConfig) : (qmodelWriteHeader cfg).length = 128 := by
  simp [qmodelWriteHeader, u32le]

/-- Claim C10: the flat-container header is a function of the presence of the
single probe tensor alone: any two sources that agree on whether
thinker.audio_tower.layers.18.self_attn.q_proj.weight is present receive
byte-identical 128-byte headers, every field coming from one of the two
hardcoded tables. -/
theorem qmodel_header_presence_only (s1 s2 : List String)
    (h : qmodelTensorKey ∈ s1 ↔ qmodelTensorKey ∈ s2) :
    qmodelHeaderBytes s1 = qmodelHeaderBytes s2 ∧ (qmodelHeaderBytes s1).length = 128 := by
  have hv : qmodelSelectVariant s1 = qmodelSelectVariant s2 := by
    unfold qmodelSelectVariant
    by_cases h1 : qmodelTensorKey ∈ s1
    · rw [if_pos h1, if_pos (h.mp h1)]
    · rw [if_neg h1, if_neg (fun h2 => h1 (h.mpr h2))]
  constructor
  · unfold qmodelHeaderBytes
    rw [hv]
  · exact qmodelWriteHeader_length _

/-- Claim C10, witness: a source containing only the probe tensor and a
source containing it twice agree on its presence and receive identical
128-byte headers. -/
theorem qmodel_header_presence_only_witness :
    qmodelHeaderBytes [qmodelTensorKey] = qmodelHeaderBytes [qmodelTensorKey, qmodelTensorKey] ∧
    (qmodelHeaderBytes [qmodelTensorKey]).length = 128 :=
  qmodel_header_presence_only [qmodelTensorKey] [qmodelTensorKey, qmodelTensorKey]
    ⟨fun _ => List.mem_cons_self _ _, fun _ => List.mem_cons_self _ _⟩
